import Mathlib

/-!
Verification development for the avasara audio-analysis core (`src/lib.rs`).

Shallow embedding conventions:
* `f32` / `f64` sample, frequency and statistic values are embedded as exact
  rationals (`ℚ`); all claims under scrutiny involve either exact small
  constants or structural facts that are independent of floating-point
  rounding of the data values themselves.
* The external YIN pitch estimator (`pitch_detection` crate) is a black box in
  the source (`detector.get_pitch(chunk, sample_rate, 0.0, 0.0)`), so the
  embedding is parameterised by an arbitrary estimator function
  `est : List ℚ → Nat → Option (ℚ × ℚ)` returning an optional
  (frequency, clarity) pair for a window and a sample rate.
* Rust panics (hard failures) are embedded as `Option`/`Except` failure
  values: `analyze_pitch` panics on an empty trimmed set (`median` index
  underflow / `first().unwrap()`), embedded as `none`; `interleave_to_mono`
  panics on unsupported channel counts, embedded as `Except.error` with the
  two distinct panic causes as distinct error constructors.
-/

namespace Avasara

/-- One step of `slice::chunks(c)`: repeatedly take `c` elements from the
front of the list, then continue on the rest.  The extra `Nat` argument is
recursion fuel (structural, so that the kernel can evaluate the function);
the list length is always enough fuel because each step with `1 ≤ c`
consumes at least one element.  The source only ever uses `c = 1024`. -/
def chunksOfFuel (c : Nat) : Nat → List ℚ → List (List ℚ)
  | _, [] => []
  | 0, _ :: _ => []
  | fuel + 1, x :: xs => (x :: xs).take c :: chunksOfFuel c fuel ((x :: xs).drop c)

/-- Embeds `audio_data.chunks(c)` from the source: consecutive, non-overlapping
windows of `c` samples, the final window possibly shorter. -/
def chunksOf (c : Nat) (l : List ℚ) : List (List ℚ) :=
  chunksOfFuel c l.length l

/-- The chunk loop of `analyze_pitch` (src/lib.rs lines 175–183): for every
1024-sample chunk invoke the estimator (with both thresholds zero, absorbed
into the black-box `est`), keep the `Some (frequency, clarity)` results in
chunk order and silently skip the `None` results. -/
def pitchPoints (est : List ℚ → Nat → Option (ℚ × ℚ)) (sampleRate : Nat)
    (audio : List ℚ) : List (ℚ × ℚ) :=
  (chunksOf 1024 audio).filterMap (fun chunk => est chunk sampleRate)

/-- The range-filter loop of `analyze_pitch` (src/lib.rs lines 186–191):
push `freq` whenever `freq > min_frequency && freq < max_frequency`;
the clarity component of the pair is ignored. -/
def rangeFilter (points : List (ℚ × ℚ)) (minFrequency maxFrequency : ℚ) :
    List ℚ :=
  points.filterMap fun p =>
    if minFrequency < p.1 ∧ p.1 < maxFrequency then some p.1 else none

/-- Embeds `freqvec.sort_by(partial_cmp)` (src/lib.rs line 196): ascending sort of
the frequency values (on `ℚ` the partial order is total, so the
`unwrap_or(Equal)` branch of the source never fires). -/
def sortAsc (l : List ℚ) : List ℚ :=
  List.insertionSort (· ≤ ·) l

/-- Embeds `(freqvec.len() as f64 * 0.10).round() as usize` (src/lib.rs line 197):
round-half-away-from-zero of `n / 10`, which for nonnegative `n` is
`⌊(n + 5) / 10⌋`, here written with natural division.  (The `f64`
computation agrees with exact rational arithmetic at every feasible list
length; the idealisation to exact arithmetic is global, see the header.) -/
def trimLow (n : Nat) : Nat :=
  (n + 5) / 10

/-- The sort-and-trim step of `analyze_pitch` (src/lib.rs lines 196–199):
sort ascending, let `low = round(len * 0.10)`, `high = len - low`, and keep
the slice `[low .. high)` of the sorted vector. -/
def trimTails (l : List ℚ) : List ℚ :=
  let sorted := sortAsc l
  let low := trimLow l.length
  let high := l.length - low
  (sorted.drop low).take (high - low)

/-- Embeds `mean` (src/lib.rs lines 121–123): sum divided by length. -/
def mean (l : List ℚ) : ℚ :=
  l.sum / (l.length : ℚ)

/-- Embeds `median` (src/lib.rs lines 125–133): for even length the mean of the
slice `[mid-1 .. mid+1)` (the two middle elements), for odd length the
element at index `mid`, where `mid = len / 2`.  The slice is written with
truncated natural subtraction; the source panics on the empty list, which
the pipeline guard (`analyze_pitch` returning `none`) makes unreachable. -/
def median (l : List ℚ) : ℚ :=
  let len := l.length
  let mid := len / 2
  if len % 2 = 0 then mean ((l.drop (mid - 1)).take (mid + 1 - (mid - 1)))
  else l.getD mid 0

/-- Embeds `PitchReport` (src/lib.rs lines 137–152). -/
structure PitchReport where
  chunks_used : ℚ
  mean : ℚ
  median : ℚ
  lowest : ℚ
  highest : ℚ
deriving DecidableEq, Repr

/-- The report construction of `analyze_pitch` (src/lib.rs lines 202–208),
applied to the trimmed frequency vector and the total input sample count:
`chunks_used = len(trimmed) / (total_samples / 1024) * 100`, `mean`,
`median`, first and last element. -/
def buildReport (trimmed : List ℚ) (totalSamples : Nat) : PitchReport where
  chunks_used := ((trimmed.length : ℚ) / ((totalSamples : ℚ) / 1024)) * 100
  mean := mean trimmed
  median := median trimmed
  lowest := trimmed.headD 0
  highest := trimmed.getLastD 0

/-- Embeds `analyze_pitch` (src/lib.rs lines 169–211), parameterised by the external
estimator: chunk, estimate, range-filter, sort, trim, then build the report
from the trimmed vector.  When the trimmed vector is empty the source panics
(inside `median`, via `mid - 1` underflow / slice out of bounds, before
`first().unwrap()` is reached), embedded here as `none`. -/
def analyze_pitch (est : List ℚ → Nat → Option (ℚ × ℚ)) (audio : List ℚ)
    (sampleRate : Nat) (minFrequency maxFrequency : ℚ) :
    Option (PitchReport × List ℚ) :=
  let trimmed :=
    trimTails (rangeFilter (pitchPoints est sampleRate audio)
      minFrequency maxFrequency)
  if trimmed = [] then none
  else some (buildReport trimmed audio.length, trimmed)

/-- The two panic causes of `interleave_to_mono` (src/lib.rs lines 229–233):
more than two channels, and zero channels. -/
inductive ChannelError where
  | moreThanTwo : ChannelError
  | noChannels : ChannelError
deriving DecidableEq, Repr

/-- The mono audio value `Audio<Ch32, 1>` returned by `interleave_to_mono`:
a sample rate and a single-channel sample buffer. -/
structure MonoAudio where
  sampleRate : Nat
  samples : List ℚ
deriving DecidableEq, Repr

/-- Modelled from the spec: the stereo→mono conversion performed by the
external `fon` crate call `Audio::<Ch32, 1>::with_audio` on a 2-channel
buffer is not in this repository; per the spec it is a true down-mix taking
the average of each interleaved left/right sample pair. -/
def stereoToMonoSamples : List ℚ → List ℚ
  | a :: b :: rest => (a + b) / 2 :: stereoToMonoSamples rest
  | _ => []

/-- Embeds `interleave_to_mono` (src/lib.rs lines 215–234): one channel is returned
unchanged (the `fon` call `with_f32_buffer` wraps the buffer as-is), two
channels are down-mixed (`stereoToMonoSamples`), more than two channels and
zero channels panic with distinct messages, embedded as distinct errors. -/
def interleave_to_mono (audio : List ℚ) (sampleRate : Nat)
    (srcChannels : Nat) : Except ChannelError MonoAudio :=
  if srcChannels = 1 then .ok ⟨sampleRate, audio⟩
  else if srcChannels = 2 then .ok ⟨sampleRate, stereoToMonoSamples audio⟩
  else if srcChannels > 2 then .error .moreThanTwo
  else .error .noChannels

lemma trimLow_le (n : Nat) : trimLow n ≤ n := by
  unfold trimLow; omega

lemma two_mul_trimLow_lt (n : Nat) (h : 1 ≤ n) : 2 * trimLow n < n := by
  unfold trimLow; omega

lemma length_sortAsc (l : List ℚ) : (sortAsc l).length = l.length :=
  (List.perm_insertionSort _ l).length_eq

lemma sorted_sortAsc (l : List ℚ) : (sortAsc l).Sorted (· ≤ ·) :=
  List.sorted_insertionSort _ l

lemma trimTails_length (l : List ℚ) :
    (trimTails l).length = l.length - 2 * trimLow l.length := by
  simp only [trimTails, List.length_take, List.length_drop, length_sortAsc]
  omega

lemma trimTails_sorted (l : List ℚ) : (trimTails l).Sorted (· ≤ ·) := by
  have h := sorted_sortAsc l
  exact List.Pairwise.sublist
    ((List.take_sublist _ _).trans (List.drop_sublist _ _)) h

lemma trimTails_ne_nil {l : List ℚ} (h : l ≠ []) : trimTails l ≠ [] := by
  have hlen := trimTails_length l
  have hpos : 1 ≤ l.length := List.length_pos.mpr h
  have hlt := two_mul_trimLow_lt l.length hpos
  intro hnil
  rw [hnil] at hlen
  simp only [List.length_nil] at hlen
  omega

lemma trimTails_getD (l : List ℚ) (i : Nat)
    (hi : i < (trimTails l).length) :
    (trimTails l).getD i 0 = (sortAsc l).getD (trimLow l.length + i) 0 := by
  have hik : i < l.length - trimLow l.length - trimLow l.length := by
    simp only [trimTails, List.length_take, List.length_drop,
      length_sortAsc] at hi
    omega
  simp only [trimTails]
  rw [List.getD_eq_getElem?_getD, List.getElem?_take, if_pos hik,
    List.getElem?_drop, ← List.getD_eq_getElem?_getD]

lemma chunksOfFuel_fuel_irrel (c : Nat) (hc : 1 ≤ c) :
    ∀ fuelA fuelB (l : List ℚ), l.length ≤ fuelA → l.length ≤ fuelB →
      chunksOfFuel c fuelA l = chunksOfFuel c fuelB l := by
  intro fuelA
  induction fuelA with
  | zero =>
    intro fuelB l hA hB
    have : l = [] := List.eq_nil_of_length_eq_zero (Nat.le_zero.mp hA)
    subst this
    cases fuelB <;> rfl
  | succ n ih =>
    intro fuelB l hA hB
    cases l with
    | nil => cases fuelB <;> rfl
    | cons x xs =>
      cases fuelB with
      | zero => simp at hB
      | succ m =>
        simp only [chunksOfFuel]
        congr 1
        apply ih
        · simp only [List.length_drop, List.length_cons] at *
          omega
        · simp only [List.length_drop, List.length_cons] at *
          omega

lemma chunksOf_cons_eq (c : Nat) (hc : 1 ≤ c) (l : List ℚ) (hl : l ≠ []) :
    chunksOf c l = l.take c :: chunksOf c (l.drop c) := by
  obtain ⟨x, xs, rfl⟩ := List.exists_cons_of_ne_nil hl
  show chunksOfFuel c (x :: xs).length (x :: xs) = _
  simp only [List.length_cons, chunksOfFuel]
  congr 1
  apply chunksOfFuel_fuel_irrel c hc
  · simp only [List.length_drop, List.length_cons]
    omega
  · exact le_rfl

lemma chunksOf_length_aux :
    ∀ (n : Nat) (l : List ℚ), l.length ≤ n →
      (chunksOf 1024 l).length = (l.length + 1023) / 1024 := by
  intro n
  induction n with
  | zero =>
    intro l hl
    have : l = [] := List.eq_nil_of_length_eq_zero (Nat.le_zero.mp hl)
    subst this
    rfl
  | succ n ih =>
    intro l hl
    rcases eq_or_ne l [] with rfl | hne
    · rfl
    · rw [chunksOf_cons_eq 1024 (by omega) l hne]
      have hpos : 1 ≤ l.length := List.length_pos.mpr hne
      have hrec := ih (l.drop 1024) (by simp only [List.length_drop]; omega)
      simp only [List.length_cons, hrec, List.length_drop]
      omega

lemma chunksOf_length (l : List ℚ) :
    (chunksOf 1024 l).length = (l.length + 1023) / 1024 :=
  chunksOf_length_aux l.length l le_rfl

lemma chunksOf_flatten_aux :
    ∀ (n : Nat) (l : List ℚ), l.length ≤ n → (chunksOf 1024 l).flatten = l := by
  intro n
  induction n with
  | zero =>
    intro l hl
    have : l = [] := List.eq_nil_of_length_eq_zero (Nat.le_zero.mp hl)
    subst this
    rfl
  | succ n ih =>
    intro l hl
    rcases eq_or_ne l [] with rfl | hne
    · rfl
    · rw [chunksOf_cons_eq 1024 (by omega) l hne]
      have hpos : 1 ≤ l.length := List.length_pos.mpr hne
      have hrec := ih (l.drop 1024) (by simp only [List.length_drop]; omega)
      simp only [List.flatten_cons, hrec, List.take_append_drop]

lemma chunksOf_flatten (l : List ℚ) : (chunksOf 1024 l).flatten = l :=
  chunksOf_flatten_aux l.length l le_rfl

lemma chunksOf_getD_aux :
    ∀ (n : Nat) (l : List ℚ) (i : Nat), l.length ≤ n →
      (chunksOf 1024 l).getD i [] = (l.drop (1024 * i)).take 1024 := by
  intro n
  induction n with
  | zero =>
    intro l i hl
    have : l = [] := List.eq_nil_of_length_eq_zero (Nat.le_zero.mp hl)
    subst this
    simp [chunksOf, chunksOfFuel]
  | succ n ih =>
    intro l i hl
    rcases eq_or_ne l [] with rfl | hne
    · simp [chunksOf, chunksOfFuel]
    · rw [chunksOf_cons_eq 1024 (by omega) l hne]
      cases i with
      | zero => simp
      | succ i =>
        have hpos : 1 ≤ l.length := List.length_pos.mpr hne
        rw [List.getD_cons_succ,
          ih (l.drop 1024) i (by simp only [List.length_drop]; omega),
          List.drop_drop]
        congr 2
        ring

lemma chunksOf_getD (l : List ℚ) (i : Nat) :
    (chunksOf 1024 l).getD i [] = (l.drop (1024 * i)).take 1024 :=
  chunksOf_getD_aux l.length l i le_rfl

lemma filterMap_eq_reduceOption_map {α β : Type} (f : α → Option β)
    (l : List α) : l.filterMap f = (l.map f).reduceOption := by
  induction l with
  | nil => rfl
  | cons x xs ih =>
    cases h : f x <;> simp [List.filterMap_cons, h, ih]

lemma median_odd (l : List ℚ) (h : l.length % 2 = 1) :
    median l = l.getD (l.length / 2) 0 := by
  simp only [median]
  rw [if_neg (by omega)]

lemma median_even (l : List ℚ) (hne : l ≠ []) (h : l.length % 2 = 0) :
    median l = (l.getD (l.length / 2 - 1) 0 + l.getD (l.length / 2) 0) / 2 := by
  have hpos : 1 ≤ l.length := List.length_pos.mpr hne
  have h2 : 2 ≤ l.length := by omega
  have hm1 : l.length / 2 - 1 < l.length := by omega
  have hm : l.length / 2 < l.length := by omega
  have hsub : l.length / 2 - 1 + 1 = l.length / 2 := by omega
  have htake : l.length / 2 + 1 - (l.length / 2 - 1) = 2 := by omega
  simp only [median]
  rw [if_pos h, htake, List.drop_eq_getElem_cons hm1, hsub,
    List.drop_eq_getElem_cons hm]
  simp only [List.take_succ_cons, List.take_zero, mean, List.sum_cons,
    List.sum_nil, List.length_cons, List.length_nil]
  rw [List.getD_eq_getElem l 0 hm1, List.getD_eq_getElem l 0 hm]
  norm_num

lemma analyze_pitch_some {est : List ℚ → Nat → Option (ℚ × ℚ)}
    {audio : List ℚ} {sampleRate : Nat} {minF maxF : ℚ}
    {rep : PitchReport} {trimmed : List ℚ}
    (h : analyze_pitch est audio sampleRate minF maxF = some (rep, trimmed)) :
    trimmed =
        trimTails (rangeFilter (pitchPoints est sampleRate audio) minF maxF) ∧
      rep = buildReport trimmed audio.length ∧ trimmed ≠ [] := by
  simp only [analyze_pitch] at h
  split at h
  · exact absurd h (by simp)
  · rename_i hc
    rw [Option.some.injEq, Prod.mk.injEq] at h
    obtain ⟨h1, h2⟩ := h
    refine ⟨h2.symm, ?_, ?_⟩
    · rw [← h1, h2]
    · rw [← h2]; exact hc

lemma analyze_pitch_eq_some (est : List ℚ → Nat → Option (ℚ × ℚ))
    (audio : List ℚ) (sampleRate : Nat) (minF maxF : ℚ)
    (h : trimTails (rangeFilter (pitchPoints est sampleRate audio)
      minF maxF) ≠ []) :
    analyze_pitch est audio sampleRate minF maxF =
      some (buildReport (trimTails (rangeFilter
          (pitchPoints est sampleRate audio) minF maxF)) audio.length,
        trimTails (rangeFilter (pitchPoints est sampleRate audio)
          minF maxF)) := by
  simp only [analyze_pitch]
  rw [if_neg h]

lemma analyze_pitch_eq_none (est : List ℚ → Nat → Option (ℚ × ℚ))
    (audio : List ℚ) (sampleRate : Nat) (minF maxF : ℚ)
    (h : trimTails (rangeFilter (pitchPoints est sampleRate audio)
      minF maxF) = []) :
    analyze_pitch est audio sampleRate minF maxF = none := by
  simp only [analyze_pitch]
  rw [if_pos h]

lemma rangeFilter_eq_filter (pts : List (ℚ × ℚ)) (minF maxF : ℚ) :
    rangeFilter pts minF maxF =
      (pts.map Prod.fst).filter (fun f => decide (minF < f ∧ f < maxF)) := by
  induction pts with
  | nil => rfl
  | cons p t ih =>
    simp only [rangeFilter] at ih ⊢
    rw [List.filterMap_cons, List.map_cons, List.filter_cons]
    by_cases hp : minF < p.1 ∧ p.1 < maxF
    · simp only [if_pos hp, decide_eq_true_eq, hp, ih]
      simp
    · simp only [if_neg hp, ih]
      simp [hp]

lemma trimLow_eq_round (n : Nat) :
    (trimLow n : ℤ) = round ((n : ℚ) * 0.10) := by
  have h01 : (0.10 : ℚ) = 1 / 10 := by norm_num
  have hsum : (n : ℚ) * 0.10 + 1 / 2 = ((n + 5 : ℤ) : ℚ) / ((10 : ℕ) : ℚ) := by
    rw [h01]
    push_cast
    ring
  rw [round_eq, hsum, Rat.floor_intCast_div_natCast]
  unfold trimLow
  omega

lemma stereoToMono_pair_spec :
    ∀ (n : Nat) (audio : List ℚ), audio.length = 2 * n →
      (stereoToMonoSamples audio).length = n ∧
      ∀ i, i < n → (stereoToMonoSamples audio).getD i 0 =
        (audio.getD (2 * i) 0 + audio.getD (2 * i + 1) 0) / 2 := by
  intro n
  induction n with
  | zero =>
    intro audio h
    have : audio = [] := List.eq_nil_of_length_eq_zero (by omega)
    subst this
    exact ⟨rfl, fun i hi => absurd hi (by omega)⟩
  | succ n ih =>
    intro audio h
    cases audio with
    | nil => simp at h
    | cons a t =>
      cases t with
      | nil => simp at h; omega
      | cons b rest =>
        have hrest : rest.length = 2 * n := by
          simp only [List.length_cons] at h
          omega
        obtain ⟨ihl, ihg⟩ := ih rest hrest
        refine ⟨?_, ?_⟩
        · simp only [stereoToMonoSamples, List.length_cons, ihl]
        · intro i hi
          cases i with
          | zero =>
            simp [stereoToMonoSamples]
          | succ i =>
            have e1 : 2 * (i + 1) = 2 * i + 1 + 1 := by omega
            have e2 : 2 * (i + 1) + 1 = 2 * i + 1 + 1 + 1 := by omega
            simp only [stereoToMonoSamples, List.getD_cons_succ, e1, e2]
            exact ihg i (by omega)

/-- Concrete estimator that always finds a 100 Hz pitch, used by witnesses. -/
def estConst : List ℚ → Nat → Option (ℚ × ℚ) :=
  fun _ _ => some (100, 1)

/-- Concrete estimator that never finds a pitch, used by witnesses. -/
def estNone : List ℚ → Nat → Option (ℚ × ℚ) :=
  fun _ _ => none

/-- Concrete ten-element list of frequencies, used by witnesses. -/
def sampleFreqs : List ℚ :=
  [5, 1, 4, 2, 3, 9, 8, 7, 6, 0]

/-- C1: after sorting the range-filtered frequencies ascending, the trim
computes `low = round(n * 0.10)` with round-half-away-from-zero on the
filtered length `n` (on naturals this equals Mathlib `round`, which rounds
halves up) and retains exactly the elements at positions `[low, n - low)` of
the sorted vector, so for every filtered input of length `n > 0` the output
has length `n - 2 * round(0.10 * n)` and is sorted ascending. -/
theorem trim_length_sorted (l : List ℚ) (_h : 0 < l.length) :
    (trimTails l).length = l.length - 2 * trimLow l.length ∧
      (trimTails l).Sorted (· ≤ ·) ∧
      (trimLow l.length : ℤ) = round ((l.length : ℚ) * 0.10) ∧
      trimTails l = ((sortAsc l).drop (trimLow l.length)).take
        (l.length - trimLow l.length - trimLow l.length) :=
  ⟨trimTails_length l, trimTails_sorted l, trimLow_eq_round l.length, rfl⟩

/-- Witness for C1 at a concrete ten-element input (low = 1, output length 8). -/
theorem trim_length_sorted_witness :
    (trimTails sampleFreqs).length =
        sampleFreqs.length - 2 * trimLow sampleFreqs.length ∧
      (trimTails sampleFreqs).Sorted (· ≤ ·) ∧
      (trimLow sampleFreqs.length : ℤ) =
        round ((sampleFreqs.length : ℚ) * 0.10) ∧
      trimTails sampleFreqs =
        ((sortAsc sampleFreqs).drop (trimLow sampleFreqs.length)).take
          (sampleFreqs.length - trimLow sampleFreqs.length -
            trimLow sampleFreqs.length) :=
  trim_length_sorted sampleFreqs (by decide)

/-- C2: if the range filter leaves zero frequency values, `analyze_pitch`
fails hard (the source panics, embedded as `none`) and never returns a
`PitchReport`. -/
theorem analyze_pitch_empty_filter_fails
    (est : List ℚ → Nat → Option (ℚ × ℚ)) (audio : List ℚ)
    (sampleRate : Nat) (minF maxF : ℚ)
    (h : rangeFilter (pitchPoints est sampleRate audio) minF maxF = []) :
    analyze_pitch est audio sampleRate minF maxF = none := by
  apply analyze_pitch_eq_none
  rw [h]
  rfl

/-- Witness for C2: an estimator that never yields an estimate gives an
empty candidate set, and `analyze_pitch` fails. -/
theorem analyze_pitch_empty_filter_fails_witness :
    analyze_pitch estNone [0] 44100 50 600 = none :=
  analyze_pitch_empty_filter_fails estNone [0] 44100 50 600 rfl

/-- C3: the range filter retains exactly the candidates whose frequency `f`
satisfies `minF < f < maxF` strictly on both ends (so a candidate at either
bound is rejected), and the confidence component has no effect on
retention. -/
theorem range_filter_strict :
    (∀ (pts : List (ℚ × ℚ)) (minF maxF : ℚ),
        rangeFilter pts minF maxF =
          (pts.map Prod.fst).filter
            (fun f => decide (minF < f ∧ f < maxF))) ∧
      (∀ (minF maxF c : ℚ),
        rangeFilter [(minF, c)] minF maxF = [] ∧
          rangeFilter [(maxF, c)] minF maxF = []) ∧
      (∀ (pts : List (ℚ × ℚ)) (minF maxF : ℚ) (g : ℚ × ℚ → ℚ),
        rangeFilter (pts.map fun p => (p.1, g p)) minF maxF =
          rangeFilter pts minF maxF) := by
  refine ⟨rangeFilter_eq_filter, ?_, ?_⟩
  · intro minF maxF c
    constructor
    · simp only [rangeFilter, List.filterMap_cons]
      rw [if_neg]
      · rfl
      · rintro ⟨h1, -⟩
        exact lt_irrefl _ h1
    · simp only [rangeFilter, List.filterMap_cons]
      rw [if_neg]
      · rfl
      · rintro ⟨-, h2⟩
        exact lt_irrefl _ h2
  · intro pts minF maxF g
    rw [rangeFilter_eq_filter, rangeFilter_eq_filter, List.map_map]
    rfl

/-- C4: the `median` used in the `PitchReport` is the middle element for odd
length and the average of the two middle elements for even length; in
particular `median [1, 2, 3] = 2` and `median [1, 2, 3, 4] = 5/2`; and for
every successful run the report's `median`, `lowest` and `highest` are the
median, first and last element of the (sorted) trimmed sequence. -/
theorem median_spec :
    (∀ l : List ℚ, l ≠ [] → l.length % 2 = 1 →
        median l = l.getD (l.length / 2) 0) ∧
      (∀ l : List ℚ, l ≠ [] → l.length % 2 = 0 →
        median l =
          (l.getD (l.length / 2 - 1) 0 + l.getD (l.length / 2) 0) / 2) ∧
      median [1, 2, 3] = 2 ∧ median [1, 2, 3, 4] = 5 / 2 ∧
      (∀ (est : List ℚ → Nat → Option (ℚ × ℚ)) (audio : List ℚ)
          (sampleRate : Nat) (minF maxF : ℚ) (rep : PitchReport)
          (trimmed : List ℚ),
        analyze_pitch est audio sampleRate minF maxF = some (rep, trimmed) →
          rep.median = median trimmed ∧ trimmed.Sorted (· ≤ ·) ∧
            rep.lowest = trimmed.headD 0 ∧
            rep.highest = trimmed.getLastD 0) := by
  refine ⟨fun l _ h => median_odd l h, fun l hne h => median_even l hne h,
    rfl, by norm_num [median, mean], ?_⟩
  intro est audio sampleRate minF maxF rep trimmed h
  obtain ⟨h1, h2, -⟩ := analyze_pitch_some h
  refine ⟨?_, ?_, ?_, ?_⟩
  · rw [h2]; rfl
  · rw [h1]
    exact trimTails_sorted _
  · rw [h2]; rfl
  · rw [h2]; rfl

/-- Witness for C4: the odd case at `[5]`, the even case at `[1, 2]`, and a
successful concrete run of `analyze_pitch`. -/
theorem median_spec_witness :
    median [5] = ([5] : List ℚ).getD (([5] : List ℚ).length / 2) 0 ∧
      median [1, 2] =
        (([1, 2] : List ℚ).getD (([1, 2] : List ℚ).length / 2 - 1) 0 +
          ([1, 2] : List ℚ).getD (([1, 2] : List ℚ).length / 2) 0) / 2 ∧
      (buildReport [100] 1).median = median [100] ∧
      ([100] : List ℚ).Sorted (· ≤ ·) ∧
      (buildReport [100] 1).lowest = ([100] : List ℚ).headD 0 ∧
      (buildReport [100] 1).highest = ([100] : List ℚ).getLastD 0 := by
  refine ⟨median_spec.1 [5] (by decide) (by decide),
    median_spec.2.1 [1, 2] (by decide) (by decide), ?_⟩
  have h := median_spec.2.2.2.2 estConst [0] 44100 50 600
    (buildReport [100] 1) [100] rfl
  exact h

/-- C5: on a buffer of length `L` the chunk sampler attempts exactly
`ceil(L / 1024)` estimator invocations on consecutive non-overlapping
1024-sample windows (the `i`-th window is `audio[1024 i .. 1024 i + 1024)`,
the last one shorter when 1024 does not divide `L`; the windows concatenate
back to the buffer), produces at most `ceil(L / 1024)` candidates, and the
candidate list is the chunk-ordered estimate list with the `none` results
silently removed. -/
theorem chunk_sampler_spec (est : List ℚ → Nat → Option (ℚ × ℚ))
    (sampleRate : Nat) (audio : List ℚ) :
    (chunksOf 1024 audio).length = (audio.length + 1023) / 1024 ∧
      (chunksOf 1024 audio).flatten = audio ∧
      (∀ i : Nat, (chunksOf 1024 audio).getD i [] =
        (audio.drop (1024 * i)).take 1024) ∧
      (pitchPoints est sampleRate audio).length ≤
        (audio.length + 1023) / 1024 ∧
      pitchPoints est sampleRate audio =
        ((chunksOf 1024 audio).map
          (fun chunk => est chunk sampleRate)).reduceOption := by
  refine ⟨chunksOf_length audio, chunksOf_flatten audio,
    chunksOf_getD audio, ?_, filterMap_eq_reduceOption_map _ _⟩
  rw [← chunksOf_length audio]
  exact List.length_filterMap_le _ _

/-- C6: for every successful run of `analyze_pitch`, the `chunks_used` field
of the returned report equals
`(trimmed count / (total sample count / 1024)) * 100`: it divides the
post-trim candidate count by the total theoretical chunk count, not by the
post-filter count. -/
theorem chunks_used_formula (est : List ℚ → Nat → Option (ℚ × ℚ))
    (audio : List ℚ) (sampleRate : Nat) (minF maxF : ℚ)
    (rep : PitchReport) (trimmed : List ℚ)
    (h : analyze_pitch est audio sampleRate minF maxF = some (rep, trimmed)) :
    rep.chunks_used =
      ((trimmed.length : ℚ) / ((audio.length : ℚ) / 1024)) * 100 := by
  obtain ⟨-, h2, -⟩ := analyze_pitch_some h
  rw [h2]
  rfl

/-- Witness for C6: a concrete successful run on a one-sample buffer with a
constant estimator. -/
theorem chunks_used_formula_witness :
    (buildReport [100] 1).chunks_used =
      ((([100] : List ℚ).length : ℚ) /
        ((([0] : List ℚ).length : ℚ) / 1024)) * 100 :=
  chunks_used_formula estConst [0] 44100 50 600 (buildReport [100] 1)
    [100] rfl

/-- C7: on a stereo buffer of length `2 * n` the channel reducer succeeds
with a buffer of length `n` whose `i`-th sample is the average of the `i`-th
interleaved left/right pair, preserving the sample rate (the down-mix itself
is performed by the external `fon` crate and is modelled from the spec). -/
theorem stereo_downmix_avg (audio : List ℚ) (sampleRate n : Nat)
    (h : audio.length = 2 * n) :
    interleave_to_mono audio sampleRate 2 =
        .ok ⟨sampleRate, stereoToMonoSamples audio⟩ ∧
      (stereoToMonoSamples audio).length = n ∧
      ∀ i, i < n → (stereoToMonoSamples audio).getD i 0 =
        (audio.getD (2 * i) 0 + audio.getD (2 * i + 1) 0) / 2 := by
  obtain ⟨hl, hg⟩ := stereoToMono_pair_spec n audio h
  exact ⟨rfl, hl, hg⟩

/-- Witness for C7 at the concrete stereo buffer `[1, 3]` (one L/R pair). -/
theorem stereo_downmix_avg_witness :
    interleave_to_mono [1, 3] 48000 2 =
        .ok ⟨48000, stereoToMonoSamples [1, 3]⟩ ∧
      (stereoToMonoSamples [1, 3]).length = 1 ∧
      (stereoToMonoSamples [1, 3]).getD 0 0 =
        (([1, 3] : List ℚ).getD 0 0 + ([1, 3] : List ℚ).getD 1 0) / 2 := by
  obtain ⟨h1, h2, h3⟩ := stereo_downmix_avg [1, 3] 48000 1 (by decide)
  exact ⟨h1, h2, h3 0 (by decide)⟩

/-- C8: on a mono buffer the channel reducer is the identity transform: the
samples and the sample rate are returned unchanged, tagged as one channel. -/
theorem mono_identity (audio : List ℚ) (sampleRate : Nat) :
    interleave_to_mono audio sampleRate 1 = .ok ⟨sampleRate, audio⟩ :=
  rfl

/-- C9: for every channel count outside the set containing 1 and 2 the
channel reducer fails (the source panics, embedded as `Except.error`) and
never returns a buffer, and the failure cause for zero channels is a
constructor distinct from the one for more than two channels. -/
theorem unsupported_channels_error (audio : List ℚ)
    (sampleRate srcChannels : Nat)
    (h1 : srcChannels ≠ 1) (h2 : srcChannels ≠ 2) :
    (srcChannels = 0 ∨ 2 < srcChannels) ∧
      interleave_to_mono audio sampleRate srcChannels =
        .error (if 2 < srcChannels then .moreThanTwo else .noChannels) ∧
      ChannelError.noChannels ≠ ChannelError.moreThanTwo := by
  refine ⟨by omega, ?_, by decide⟩
  simp only [interleave_to_mono]
  rw [if_neg h1, if_neg h2]
  by_cases h3 : 2 < srcChannels
  · rw [if_pos h3, if_pos h3]
  · rw [if_neg h3, if_neg h3]

/-- Witness for C9 at zero channels and at three channels: the two failure
causes are observed and are distinct. -/
theorem unsupported_channels_error_witness :
    interleave_to_mono [] 48000 0 = .error .noChannels ∧
      interleave_to_mono [] 48000 3 = .error .moreThanTwo ∧
      ChannelError.noChannels ≠ ChannelError.moreThanTwo := by
  have h0 := unsupported_channels_error [] 48000 0 (by decide) (by decide)
  have h3 := unsupported_channels_error [] 48000 3 (by decide) (by decide)
  refine ⟨?_, ?_, h0.2.2⟩
  · have := h0.2.1
    simpa using this
  · have := h3.2.1
    simpa using this

/-- C10 (implicit): for every filtered length `n ≥ 1` the unclamped trim
bound satisfies `2 * round(0.10 * n) < n`, so the slice `[low, n - low)` is
well-formed and nonempty; hence whenever at least one candidate passes the
range filter, `analyze_pitch` does not hit the panic path and returns a
report together with at least one trimmed frequency, with no clamp needed. -/
theorem trim_nonempty_safety :
    (∀ n : Nat, 1 ≤ n → 2 * trimLow n < n) ∧
      (∀ (est : List ℚ → Nat → Option (ℚ × ℚ)) (audio : List ℚ)
          (sampleRate : Nat) (minF maxF : ℚ),
        rangeFilter (pitchPoints est sampleRate audio) minF maxF ≠ [] →
          analyze_pitch est audio sampleRate minF maxF =
              some (buildReport (trimTails (rangeFilter
                  (pitchPoints est sampleRate audio) minF maxF))
                  audio.length,
                trimTails (rangeFilter (pitchPoints est sampleRate audio)
                  minF maxF)) ∧
            trimTails (rangeFilter (pitchPoints est sampleRate audio)
              minF maxF) ≠ []) := by
  refine ⟨two_mul_trimLow_lt, ?_⟩
  intro est audio sampleRate minF maxF hne
  have ht := trimTails_ne_nil hne
  exact ⟨analyze_pitch_eq_some est audio sampleRate minF maxF ht, ht⟩

/-- Witness for C10: the arithmetic bound at `n = 10` and a concrete run
whose range filter keeps one candidate. -/
theorem trim_nonempty_safety_witness :
    2 * trimLow 10 < 10 ∧
      analyze_pitch estConst [0] 44100 50 600 =
          some (buildReport (trimTails (rangeFilter
              (pitchPoints estConst 44100 [0]) 50 600)) ([0] : List ℚ).length,
            trimTails (rangeFilter (pitchPoints estConst 44100 [0]) 50 600)) ∧
      trimTails (rangeFilter (pitchPoints estConst 44100 [0]) 50 600) ≠ [] :=
  ⟨trim_nonempty_safety.1 10 (by decide),
    trim_nonempty_safety.2 estConst [0] 44100 50 600 (by decide)⟩

end Avasara
